import Mathlib

/-!
Verification development for the ekanite time-partitioned log-search engine
(mei-rune/ekanite). Each section shallowly embeds one part of the Go source
and proves or refutes the corresponding specification claim.

Times are modelled as `Int` nanoseconds measured from Go's zero time;
`time.Time` comparisons (`Before`/`After`/`Equal`) become `<`/`>`/`=` on `Int`.
-/

namespace Ekanite

/-! ### Generic list machinery shared by several sections

`sortGo` models Go's `sort.Sort`/`sort.Slice` on the small slices that occur
here: for slices of fewer than 12 elements Go's pdqsort runs plain insertion
sort, moving `data[i]` left while `data.Less(j, j-1)` holds.  `insertRev`
performs exactly that bubbling, expressed on the reversed processed prefix
(head of `racc` = rightmost element of the prefix). -/

/-- One Go insertion-sort step: insert `x` into the reversed prefix `racc`,
moving it left (towards the head of `racc`'s reversal) while `less x y` holds
for each element `y` it passes. -/
def insertRev (less : α → α → Bool) (x : α) : List α → List α
  | [] => [x]
  | y :: ys => if less x y then y :: insertRev less x ys else x :: y :: ys

/-- Go's insertion sort (`sort.Sort` on slices shorter than 12 elements):
fold `insertRev` over the input and un-reverse the accumulator. -/
def sortGo (less : α → α → Bool) (l : List α) : List α :=
  (l.foldl (fun racc x => insertRev less x racc) []).reverse

theorem insertRev_perm (less : α → α → Bool) (x : α) (l : List α) :
    List.Perm (insertRev less x l) (x :: l) := by
  induction l with
  | nil => simp [insertRev]
  | cons y ys ih =>
    by_cases hxy : less x y
    · simp only [insertRev, hxy, if_true]
      exact (List.Perm.cons y ih).trans (List.Perm.swap x y ys)
    · simp [insertRev, hxy]

theorem mem_insertRev {less : α → α → Bool} {x z : α} {l : List α}
    (h : z ∈ insertRev less x l) : z = x ∨ z ∈ l := by
  have := (insertRev_perm less x l).mem_iff.mp h
  simpa using this

theorem foldl_insertRev_perm (less : α → α → Bool) :
    ∀ (l racc : List α),
      List.Perm (l.foldl (fun racc x => insertRev less x racc) racc) (l ++ racc)
  | [], racc => by simp
  | a :: as, racc => by
    have ih := foldl_insertRev_perm less as (insertRev less a racc)
    have h1 : List.Perm (as ++ insertRev less a racc) (as ++ (a :: racc)) :=
      List.Perm.append_left as (insertRev_perm less a racc)
    have h2 : List.Perm (as ++ a :: racc) (a :: (as ++ racc)) := List.perm_middle
    simpa using (ih.trans h1).trans h2

/-- `sortGo` permutes its input. -/
theorem sortGo_perm (less : α → α → Bool) (l : List α) :
    List.Perm (sortGo less l) l := by
  have h := foldl_insertRev_perm less l []
  exact (List.reverse_perm _).trans (by simpa using h)

theorem insertRev_pairwise {less : α → α → Bool} {S : Set α}
    (hasym : ∀ a ∈ S, ∀ b ∈ S, less a b = true → less b a = false)
    (hneg : ∀ a ∈ S, ∀ b ∈ S, ∀ c ∈ S,
      less a b = false → less b c = false → less a c = false)
    {x : α} (hx : x ∈ S) {l : List α} (hl : ∀ z ∈ l, z ∈ S)
    (hp : l.Pairwise (fun a b => less a b = false)) :
    (insertRev less x l).Pairwise (fun a b => less a b = false) := by
  induction l with
  | nil => simp [insertRev]
  | cons y ys ih =>
    have hy : y ∈ S := hl y (List.mem_cons_self y ys)
    have hys : ∀ z ∈ ys, z ∈ S := fun z hz => hl z (List.mem_cons_of_mem y hz)
    rcases List.pairwise_cons.mp hp with ⟨hyz, hpys⟩
    by_cases hxy : less x y
    · simp only [insertRev, hxy, if_true]
      refine List.pairwise_cons.mpr ⟨?_, ih hys hpys⟩
      intro z hz
      rcases mem_insertRev hz with rfl | hz'
      · exact hasym z hx y hy hxy
      · exact hyz z hz'
    · have hxy' : less x y = false := by
        revert hxy; cases less x y <;> simp
      simp only [insertRev, if_neg hxy]
      refine List.pairwise_cons.mpr ⟨?_, hp⟩
      intro z hz
      rcases List.mem_cons.mp hz with rfl | hz'
      · exact hxy'
      · exact hneg x hx y hy z (hys z hz') hxy' (hyz z hz')

theorem foldl_insertRev_pairwise {less : α → α → Bool} {S : Set α}
    (hasym : ∀ a ∈ S, ∀ b ∈ S, less a b = true → less b a = false)
    (hneg : ∀ a ∈ S, ∀ b ∈ S, ∀ c ∈ S,
      less a b = false → less b c = false → less a c = false) :
    ∀ (l racc : List α), (∀ z ∈ l, z ∈ S) → (∀ z ∈ racc, z ∈ S) →
      racc.Pairwise (fun a b => less a b = false) →
      (l.foldl (fun racc x => insertRev less x racc) racc).Pairwise
        (fun a b => less a b = false)
  | [], racc, _, _, hp => by simpa using hp
  | a :: as, racc, hl, hracc, hp => by
    have ha : a ∈ S := hl a (List.mem_cons_self a as)
    have has : ∀ z ∈ as, z ∈ S := fun z hz => hl z (List.mem_cons_of_mem a hz)
    have hins : ∀ z ∈ insertRev less a racc, z ∈ S := by
      intro z hz
      rcases mem_insertRev hz with rfl | hz'
      · exact ha
      · exact hracc z hz'
    exact foldl_insertRev_pairwise hasym hneg as (insertRev less a racc) has hins
      (insertRev_pairwise hasym hneg ha hracc hp)

/-- With a comparator that is asymmetric and negatively transitive on the
elements, Go's insertion sort yields a list sorted under the comparator:
no later element is `less` than an earlier one. -/
theorem sortGo_pairwise {less : α → α → Bool} {S : Set α}
    (hasym : ∀ a ∈ S, ∀ b ∈ S, less a b = true → less b a = false)
    (hneg : ∀ a ∈ S, ∀ b ∈ S, ∀ c ∈ S,
      less a b = false → less b c = false → less a c = false)
    (l : List α) (hl : ∀ z ∈ l, z ∈ S) :
    (sortGo less l).Pairwise (fun a b => less b a = false) := by
  rw [sortGo, List.pairwise_reverse]
  exact foldl_insertRev_pairwise hasym hneg l [] hl (by simp) (by simp)

/-- Sorting with a comparator that never holds leaves the list unchanged
(each element is appended at the end of the prefix). -/
theorem sortGo_false (l : List α) : sortGo (fun _ _ => false) l = l := by
  suffices h : ∀ racc : List α,
      l.foldl (fun racc x => insertRev (fun _ _ => false) x racc) racc =
        l.reverse ++ racc by
    simp [sortGo, h []]
  have hins : ∀ (a : α) (racc : List α),
      insertRev (fun _ _ => false) a racc = a :: racc := by
    intro a racc
    cases racc <;> simp [insertRev]
  induction l with
  | nil => intro racc; simp
  | cons a as ih => intro racc; simp [hins, ih]

/-! ### Lexicographic comparison of strings

Both the document-id claim and the facet-sorting claim compare Go strings
byte-wise (`<` on strings, `strings.Compare`).  Strings are modelled as
`List Char`; `lexLt` is the standard lexicographic strict order. -/

/-- Lexicographic strict order on character lists (Go string `<` /
`strings.Compare(a, b) < 0`). -/
def lexLt : List Char → List Char → Bool
  | [], [] => false
  | [], _ :: _ => true
  | _ :: _, [] => false
  | x :: xs, y :: ys => if x < y then true else if y < x then false else lexLt xs ys

theorem lexLt_cons (x y : Char) (xs ys : List Char) :
    lexLt (x :: xs) (y :: ys) =
      if x < y then true else if y < x then false else lexLt xs ys := rfl

theorem lexLt_asymm : ∀ {a b : List Char}, lexLt a b = true → lexLt b a = false
  | [], [] => by simp [lexLt]
  | [], _ :: _ => by simp [lexLt]
  | _ :: _, [] => by simp [lexLt]
  | x :: xs, y :: ys => by
    intro h
    rcases lt_trichotomy x y with hxy | hxy | hxy
    · rw [lexLt_cons, if_neg (asymm hxy), if_pos hxy]
    · subst hxy
      rw [lexLt_cons, if_neg (lt_irrefl x), if_neg (lt_irrefl x)] at h ⊢
      exact lexLt_asymm h
    · rw [lexLt_cons, if_neg (asymm hxy), if_pos hxy] at h
      exact absurd h (by simp)

theorem lexLt_eq_of_not : ∀ {a b : List Char},
    lexLt a b = false → lexLt b a = false → a = b
  | [], [], _, _ => rfl
  | [], _ :: _, hab, _ => by simp [lexLt] at hab
  | _ :: _, [], _, hba => by simp [lexLt] at hba
  | x :: xs, y :: ys, hab, hba => by
    rcases lt_trichotomy x y with hxy | hxy | hxy
    · rw [lexLt_cons, if_pos hxy] at hab
      exact absurd hab (by simp)
    · subst hxy
      rw [lexLt_cons, if_neg (lt_irrefl x), if_neg (lt_irrefl x)] at hab hba
      have := lexLt_eq_of_not hab hba
      rw [this]
    · rw [lexLt_cons, if_pos hxy] at hba
      exact absurd hba (by simp)

theorem lexLt_trans : ∀ {a b c : List Char},
    lexLt a b = true → lexLt b c = true → lexLt a c = true
  | [], _, _ :: _, _, _ => by simp [lexLt]
  | [], _ :: _, [], _, h => by simp [lexLt] at h
  | [], [], [], h, _ => by simp [lexLt] at h
  | _ :: _, [], _, h, _ => by simp [lexLt] at h
  | _ :: _, _ :: _, [], _, h => by simp [lexLt] at h
  | x :: xs, y :: ys, z :: zs, hab, hbc => by
    rcases lt_trichotomy x y with hxy | hxy | hxy
    · rcases lt_trichotomy y z with hyz | hyz | hyz
      · rw [lexLt_cons, if_pos (lt_trans hxy hyz)]
      · subst hyz
        rw [lexLt_cons, if_pos hxy]
      · rw [lexLt_cons, if_neg (asymm hyz), if_pos hyz] at hbc
        exact absurd hbc (by simp)
    · subst hxy
      rcases lt_trichotomy x z with hxz | hxz | hxz
      · rw [lexLt_cons, if_pos hxz]
      · subst hxz
        rw [lexLt_cons, if_neg (lt_irrefl x), if_neg (lt_irrefl x)] at hab hbc ⊢
        exact lexLt_trans hab hbc
      · rw [lexLt_cons, if_neg (asymm hxz), if_pos hxz] at hbc
        exact absurd hbc (by simp)
    · rw [lexLt_cons, if_neg (asymm hxy), if_pos hxy] at hab
      exact absurd hab (by simp)

theorem lexLt_negtrans {a b c : List Char}
    (hab : lexLt a b = false) (hbc : lexLt b c = false) : lexLt a c = false := by
  by_contra h
  have hac : lexLt a c = true := by
    revert h; cases lexLt a c <;> simp
  by_cases hba : lexLt b a = true
  · have := lexLt_trans hba hac
    rw [this] at hbc
    exact Bool.noConfusion hbc
  · have hba' : lexLt b a = false := by
      revert hba; cases lexLt b a <;> simp
    have : a = b := lexLt_eq_of_not hab hba'
    subst this
    rw [hac] at hbc
    exact Bool.noConfusion hbc

/-- Lexicographic comparison of equal-length prefixes extends to
concatenations in the expected way. -/
theorem lexLt_append : ∀ {xs ys : List Char} (u v : List Char),
    xs.length = ys.length →
    (lexLt (xs ++ u) (ys ++ v) = true ↔
      lexLt xs ys = true ∨ (xs = ys ∧ lexLt u v = true))
  | [], [], u, v, _ => by simp [lexLt]
  | [], _ :: _, _, _, h => by simp at h
  | _ :: _, [], _, _, h => by simp at h
  | x :: xs, y :: ys, u, v, hlen => by
    rcases lt_trichotomy x y with hxy | hxy | hxy
    · rw [List.cons_append, List.cons_append, lexLt_cons, if_pos hxy,
        lexLt_cons, if_pos hxy]
      simp
    · subst hxy
      rw [List.cons_append, List.cons_append, lexLt_cons,
        if_neg (lt_irrefl x), if_neg (lt_irrefl x), lexLt_cons,
        if_neg (lt_irrefl x), if_neg (lt_irrefl x),
        lexLt_append u v (by simpa using hlen)]
      simp [List.cons.injEq]
    · rw [List.cons_append, List.cons_append, lexLt_cons,
        if_neg (asymm hxy), if_pos hxy, lexLt_cons,
        if_neg (asymm hxy), if_pos hxy]
      simp [ne_of_gt hxy]

/-! ### C9 — document ids (`src/input/event.go`, `Event.ID`)

`Event.ID` formats `uint64(e.ReferenceTime().UnixNano())` and
`uint64(e.Sequence)` with `fmt.Sprintf("%016x%016x", ...)`: each value is
converted to unsigned 64-bit (two's-complement wrap, `x mod 2^64`) and printed
as 16 lowercase hex digits, zero padded. -/

/-- Go conversion `uint64(x)` of a signed 64-bit value: reduce modulo `2^64`. -/
def uint64 (x : Int) : Nat := (x % (2 ^ 64 : Int)).toNat

/-- One lowercase hexadecimal digit, as produced by Go's `%x` verb. -/
def hexDigit (n : Nat) : Char :=
  if n < 10 then Char.ofNat (48 + n) else Char.ofNat (87 + n)

/-- `n` printed as exactly `k` hex digits, most significant first (the
`%0kx` format for values below `16^k`). -/
def hexPad : Nat → Nat → List Char
  | 0, _ => []
  | k + 1, n => hexDigit (n / 16 ^ k) :: hexPad k (n % 16 ^ k)

/-- `Event.ID`: 16 hex digits of the reference time's nanoseconds followed by
16 hex digits of the sequence, both first converted to `uint64`. -/
def eventID (refTimeNanos seq : Int) : List Char :=
  hexPad 16 (uint64 refTimeNanos) ++ hexPad 16 (uint64 seq)

theorem hexPad_length : ∀ (k n : Nat), (hexPad k n).length = k
  | 0, _ => rfl
  | k + 1, n => by simp [hexPad, hexPad_length k]

theorem hexDigit_lt_iff_aux :
    ∀ a : Nat, a < 16 → ∀ b : Nat, b < 16 → (hexDigit a < hexDigit b ↔ a < b) := by
  decide

theorem hexDigit_lt_iff {a b : Nat} (ha : a < 16) (hb : b < 16) :
    hexDigit a < hexDigit b ↔ a < b :=
  hexDigit_lt_iff_aux a ha b hb

theorem div_mod_lt_iff {p q1 q2 r1 r2 : Nat} (_hp : 0 < p)
    (h1 : r1 < p) (h2 : r2 < p) :
    q1 * p + r1 < q2 * p + r2 ↔ q1 < q2 ∨ (q1 = q2 ∧ r1 < r2) := by
  constructor
  · intro h
    rcases Nat.lt_trichotomy q1 q2 with hq | hq | hq
    · exact Or.inl hq
    · subst hq
      exact Or.inr ⟨rfl, by omega⟩
    · exfalso
      have hmul : (q2 + 1) * p ≤ q1 * p :=
        Nat.mul_le_mul_right p (Nat.succ_le_of_lt hq)
      rw [Nat.succ_mul] at hmul
      omega
  · rintro (hq | ⟨rfl, hr⟩)
    · have hmul : (q1 + 1) * p ≤ q2 * p :=
        Nat.mul_le_mul_right p (Nat.succ_le_of_lt hq)
      rw [Nat.succ_mul] at hmul
      omega
    · omega

/-- Fixed-width hex strings compare lexicographically exactly as the encoded
numbers compare. -/
theorem lexLt_hexPad : ∀ (k : Nat) {a b : Nat}, a < 16 ^ k → b < 16 ^ k →
    (lexLt (hexPad k a) (hexPad k b) = true ↔ a < b)
  | 0, a, b, ha, hb => by
    norm_num at ha hb
    have ha0 : a = 0 := by omega
    have hb0 : b = 0 := by omega
    subst ha0
    subst hb0
    simp [hexPad, lexLt]
  | k + 1, a, b, ha, hb => by
    have hpow : 0 < (16 : Nat) ^ k := Nat.pos_pow_of_pos k (by norm_num)
    rw [pow_succ] at ha hb
    have hda : a / 16 ^ k < 16 := (Nat.div_lt_iff_lt_mul hpow).mpr (by omega)
    have hdb : b / 16 ^ k < 16 := (Nat.div_lt_iff_lt_mul hpow).mpr (by omega)
    have hra : a % 16 ^ k < 16 ^ k := Nat.mod_lt a hpow
    have hrb : b % 16 ^ k < 16 ^ k := Nat.mod_lt b hpow
    have hab := @div_mod_lt_iff (16 ^ k) (a / 16 ^ k) (b / 16 ^ k)
      (a % 16 ^ k) (b % 16 ^ k) hpow hra hrb
    rw [Nat.div_add_mod' a (16 ^ k), Nat.div_add_mod' b (16 ^ k)] at hab
    show lexLt (hexDigit (a / 16 ^ k) :: hexPad k (a % 16 ^ k))
        (hexDigit (b / 16 ^ k) :: hexPad k (b % 16 ^ k)) = true ↔ a < b
    rw [lexLt_cons, hab]
    rcases Nat.lt_trichotomy (a / 16 ^ k) (b / 16 ^ k) with hd | hd | hd
    · rw [if_pos ((hexDigit_lt_iff hda hdb).mpr hd)]
      simp [hd]
    · have h1 : ¬ hexDigit (a / 16 ^ k) < hexDigit (b / 16 ^ k) := by
        rw [hd]; exact lt_irrefl _
      have h2 : ¬ hexDigit (b / 16 ^ k) < hexDigit (a / 16 ^ k) := by
        rw [hd]; exact lt_irrefl _
      rw [if_neg h1, if_neg h2, lexLt_hexPad k hra hrb]
      simp [hd]
    · rw [if_neg ((fun h => absurd ((hexDigit_lt_iff hda hdb).mp h) (by omega))),
        if_pos ((hexDigit_lt_iff hdb hda).mpr hd)]
      refine iff_of_false (by simp) ?_
      rintro (h | ⟨h, _⟩) <;> omega

theorem hexPad_inj : ∀ (k : Nat) {a b : Nat}, a < 16 ^ k → b < 16 ^ k →
    hexPad k a = hexPad k b → a = b := by
  intro k a b ha hb heq
  by_contra hne
  rcases Nat.lt_or_ge a b with h | h
  · have := (lexLt_hexPad k ha hb).mpr h
    rw [heq] at this
    have : b < b := (lexLt_hexPad k hb hb).mp this
    omega
  · rcases Nat.lt_or_ge b a with h' | h'
    · have := (lexLt_hexPad k hb ha).mpr h'
      rw [heq] at this
      have : b < b := (lexLt_hexPad k hb hb).mp this
      omega
    · exact hne (le_antisymm h' h)

theorem uint64_lt : ∀ x : Int, uint64 x < 16 ^ 16 := by
  intro x
  have h1 : (0 : Int) < 2 ^ 64 := by norm_num
  have h2 : x % (2 ^ 64 : Int) < 2 ^ 64 := Int.emod_lt_of_pos x h1
  have : uint64 x < ((2 : Int) ^ 64).toNat := by
    rw [uint64]
    omega
  simpa using this

/-- C9, counterexample: the claim compares document ids for *any* two events,
but an event with a pre-epoch reference time (`UnixNano < 0`, here `-1`)
wraps around under the `uint64` conversion, so its id starts with `f...` and
sorts lexicographically *after* the id of an epoch-time event, although its
`(reference time, sequence)` pair is smaller. -/
theorem eventID_order_counterexample :
    lexLt (eventID (-1) 1) (eventID 0 1) = false ∧
    lexLt (eventID 0 1) (eventID (-1) 1) = true := by
  constructor <;> decide

/-- C9, amended: document ids compare lexicographically exactly as the pairs
of *unsigned 64-bit reinterpretations* `(uint64 t, uint64 s)` compare; for
events whose reference-time nanoseconds and sequence are both in `[0, 2^64)`
(in particular any event at or after the Unix epoch with a nonnegative
sequence) this coincides with lexicographic order on `(t, s)` itself. -/
theorem eventID_lex_iff (t1 s1 t2 s2 : Int) :
    (lexLt (eventID t1 s1) (eventID t2 s2) = true ↔
      (uint64 t1 < uint64 t2 ∨ (uint64 t1 = uint64 t2 ∧ uint64 s1 < uint64 s2))) ∧
    (0 ≤ t1 → 0 ≤ s1 → 0 ≤ t2 → 0 ≤ s2 →
      t1 < 2 ^ 64 → s1 < 2 ^ 64 → t2 < 2 ^ 64 → s2 < 2 ^ 64 →
      (lexLt (eventID t1 s1) (eventID t2 s2) = true ↔
        (t1 < t2 ∨ (t1 = t2 ∧ s1 < s2)))) := by
  have hlen : (hexPad 16 (uint64 t1)).length = (hexPad 16 (uint64 t2)).length := by
    rw [hexPad_length, hexPad_length]
  have hmain : lexLt (eventID t1 s1) (eventID t2 s2) = true ↔
      (uint64 t1 < uint64 t2 ∨ (uint64 t1 = uint64 t2 ∧ uint64 s1 < uint64 s2)) := by
    rw [eventID, eventID, lexLt_append _ _ hlen,
      lexLt_hexPad 16 (uint64_lt t1) (uint64_lt t2),
      lexLt_hexPad 16 (uint64_lt s1) (uint64_lt s2)]
    constructor
    · rintro (h | ⟨heq, h⟩)
      · exact Or.inl h
      · exact Or.inr ⟨hexPad_inj 16 (uint64_lt t1) (uint64_lt t2) heq, h⟩
    · rintro (h | ⟨heq, h⟩)
      · exact Or.inl h
      · exact Or.inr ⟨by rw [heq], h⟩
  refine ⟨hmain, ?_⟩
  intro ht1 hs1 ht2 hs2 hb1 hc1 hb2 hc2
  have e1 : (uint64 t1 : Int) = t1 := by
    rw [uint64, Int.emod_eq_of_lt ht1 hb1]
    omega
  have e2 : (uint64 s1 : Int) = s1 := by
    rw [uint64, Int.emod_eq_of_lt hs1 hc1]
    omega
  have e3 : (uint64 t2 : Int) = t2 := by
    rw [uint64, Int.emod_eq_of_lt ht2 hb2]
    omega
  have e4 : (uint64 s2 : Int) = s2 := by
    rw [uint64, Int.emod_eq_of_lt hs2 hc2]
    omega
  rw [hmain]
  omega

/-- Witness for `eventID_lex_iff` at concrete events. -/
theorem eventID_lex_iff_witness :
    lexLt (eventID 1 2) (eventID 3 4) = true := by
  have h := (eventID_lex_iff 1 2 3 4).2 (by norm_num) (by norm_num) (by norm_num)
    (by norm_num) (by norm_num) (by norm_num) (by norm_num) (by norm_num)
  exact h.mpr (Or.inl (by norm_num))

/-! ### C1 — multi-partition search merge (`src/search.go`)

Hits are opaque (`Hit` is a type parameter); a bleve `search.SortOrder` is a
list of sort fields, each abstracted to its three-way comparator, and
`SortOrder.Compare` (external library) returns the first non-zero comparison.
`MultiSearch` fans out `createChildSearchRequest req` to every partition; the
per-partition hit lists arrive on a channel in some order and `Merge` appends
each one to the accumulated `Hits`, so the model takes the list of successful
per-partition hit lists (in arrival order) as input.  Error bookkeeping,
facet fix-up and the `Took` duration do not affect the merged hit list and
are outside this model. -/

/-- bleve `SortOrder.Compare`: the first non-zero field comparison wins. -/
def sortCompare {Hit : Type} : List (Hit → Hit → Int) → Hit → Hit → Int
  | [], _, _ => 0
  | c :: rest, a, b => if c a b = 0 then sortCompare rest a b else c a b

/-- `multiSearchHitSorter.Less`: hit `a` sorts before `b` when the sort
order's comparison is negative. -/
def hitLess {Hit : Type} (so : List (Hit → Hit → Int)) (a b : Hit) : Bool :=
  decide (sortCompare so a b < 0)

/-- `bleve.SearchRequest`, restricted to the fields `MultiSearch` and
`createChildSearchRequest` touch.  `Query`, `Highlight`, `Fields`, `Facets`
(name and requested size), `Explain` and `IncludeLocations` are opaque
payloads carried through unchanged. -/
structure SearchRequest (Hit : Type) where
  Query : Nat
  Size : Nat
  From : Nat
  Highlight : Option Nat
  Fields : List String
  Facets : List (String × Nat)
  Explain : Bool
  Sort' : List (Hit → Hit → Int)
  IncludeLocations : Bool

/-- `createChildSearchRequest` (src/search.go:27-40): copy the request with
`Size = Size + From` and `From = 0`. -/
def createChildSearchRequest {Hit : Type} (req : SearchRequest Hit) : SearchRequest Hit :=
  { Query := req.Query
    Size := req.Size + req.From
    From := 0
    Highlight := req.Highlight
    Fields := req.Fields
    Facets := req.Facets
    Explain := req.Explain
    Sort' := req.Sort'
    IncludeLocations := req.IncludeLocations }

/-- The hit merging, sorting and paging of `MultiSearch`
(src/search.go:69-124): concatenate the per-partition hit lists in arrival
order, sort when a sort order is present, skip `From` hits (empty when fewer
than `From` remain), and trim to `Size` hits only when `Size > 0`. -/
def multiSearchHits {Hit : Type} (req : SearchRequest Hit) (results : List (List Hit)) :
    List Hit :=
  let hits := results.foldl (fun acc r => acc ++ r) []
  let hits := if req.Sort'.length > 0 then sortGo (hitLess req.Sort') hits else hits
  let hits :=
    if req.From > 0 ∧ hits.length > req.From then hits.drop req.From
    else if req.From > 0 then [] else hits
  if req.Size > 0 ∧ hits.length > req.Size then hits.take req.Size else hits

/-- Modelled from the spec's words (C1): the merged result is the
concatenation of the per-partition results, sorted under the requested
order, with the first `From` hits dropped and the remainder truncated to
`Size` hits. -/
def specMergedHits {Hit : Type} (req : SearchRequest Hit) (results : List (List Hit)) :
    List Hit :=
  ((sortGo (hitLess req.Sort') results.flatten).drop req.From).take req.Size

theorem foldl_append_eq_flatten (results : List (List α)) :
    results.foldl (fun acc r => acc ++ r) [] = results.flatten := by
  suffices h : ∀ acc : List α,
      results.foldl (fun acc r => acc ++ r) acc = acc ++ results.flatten by
    simpa using h []
  induction results with
  | nil => intro acc; simp
  | cons r rs ih => intro acc; simp [ih]

theorem hitLess_nil {Hit : Type} :
    hitLess ([] : List (Hit → Hit → Int)) = fun _ _ => false := by
  funext a b
  simp [hitLess, sortCompare]

/-- C1, counterexample: with `size = 0` the merged result is *not* truncated
to zero hits — the trim step is skipped entirely, so the hits remaining
after the offset drop are all returned. -/
theorem multiSearch_paging_counterexample :
    multiSearchHits
        (⟨0, 0, 1, none, [], [], false, [fun a b => b - a], false⟩ :
          SearchRequest Int) [[5], [3]] = [3] ∧
    specMergedHits
        (⟨0, 0, 1, none, [], [], false, [fun a b => b - a], false⟩ :
          SearchRequest Int) [[5], [3]] = [] := by
  constructor <;> decide

/-- C1, amended: for every request with `size > 0`, the merged
multi-partition result equals the concatenation of the per-partition results
sorted under the requested order, with the first `from` hits dropped and the
remainder truncated to `size` hits (zero hits when `from` is at least the
list length); the child request sent to each partition is the original with
`size = size + from` and `from = 0`, preserving query, facets, sort,
highlight, fields, explain and include-locations.  (When `size = 0` the code
skips the truncation and returns everything after the offset drop.) -/
theorem multiSearch_merge_paging {Hit : Type} (req : SearchRequest Hit)
    (results : List (List Hit)) (hZ : 0 < req.Size) :
    multiSearchHits req results = specMergedHits req results ∧
    createChildSearchRequest req =
      { req with Size := req.Size + req.From, From := 0 } := by
  constructor
  · have hsorted :
        (if req.Sort'.length > 0
          then sortGo (hitLess req.Sort') (results.foldl (fun acc r => acc ++ r) [])
          else results.foldl (fun acc r => acc ++ r) []) =
        sortGo (hitLess req.Sort') results.flatten := by
      rw [foldl_append_eq_flatten]
      rcases hS : req.Sort' with _ | ⟨c, cs⟩
      · simp [hitLess_nil, sortGo_false]
      · simp
    simp only [multiSearchHits, specMergedHits]
    rw [hsorted]
    generalize sortGo (hitLess req.Sort') results.flatten = L
    have hdrop :
        (if req.From > 0 ∧ L.length > req.From then L.drop req.From
          else if req.From > 0 then [] else L) = L.drop req.From := by
      by_cases hF : req.From > 0
      · by_cases hlen : L.length > req.From
        · rw [if_pos ⟨hF, hlen⟩]
        · rw [if_neg (fun h => hlen h.2), if_pos hF]
          exact (List.drop_eq_nil_of_le (by omega)).symm
      · have h0 : req.From = 0 := by omega
        rw [if_neg (fun h => hF h.1), if_neg hF, h0, List.drop_zero]
    rw [hdrop]
    by_cases hlen : (L.drop req.From).length > req.Size
    · rw [if_pos ⟨hZ, hlen⟩]
    · rw [if_neg (fun h => hlen h.2)]
      exact (List.take_of_length_le (by omega)).symm
  · rfl

/-- Witness for `multiSearch_merge_paging`: the spec's top-K paging scenario
(two partitions scored `[9,7,5,3,1]` / `[8,6,4,2,0]`, `size=3, from=2`,
descending sort). -/
theorem multiSearch_merge_paging_witness :
    0 < (⟨0, 3, 2, none, [], [], false, [fun a b => b - a], false⟩ :
        SearchRequest Int).Size ∧
    (multiSearchHits
        (⟨0, 3, 2, none, [], [], false, [fun a b => b - a], false⟩ :
          SearchRequest Int) [[9, 7, 5, 3, 1], [8, 6, 4, 2, 0]] =
      specMergedHits
        (⟨0, 3, 2, none, [], [], false, [fun a b => b - a], false⟩ :
          SearchRequest Int) [[9, 7, 5, 3, 1], [8, 6, 4, 2, 0]] ∧
    createChildSearchRequest
        (⟨0, 3, 2, none, [], [], false, [fun a b => b - a], false⟩ :
          SearchRequest Int) =
      { (⟨0, 3, 2, none, [], [], false, [fun a b => b - a], false⟩ :
          SearchRequest Int) with Size := 3 + 2, From := 0 }) :=
  ⟨by decide, multiSearch_merge_paging _ _ (by decide)⟩

/-! ### Partition registry (`src/loader.go`, `src/unnamed/part_004`)

A `LazyIndex` is a partition descriptor: process-local id, inclusive start
time, exclusive end time, is-new flag (the on-disk path is derived from the
start time and does not participate in any claim, so it is omitted; the id
stands in for it where a path is needed).  The registry is the
`IndexLoader.allIndexes` slice. -/

structure LazyIndex where
  id : Nat
  startTime : Int
  endTime : Int
  isNew : Bool
deriving DecidableEq, Repr

/-- `LazyIndex.Contains` (src/loader.go:49-51):
`(t.Equal(startTime) || t.After(startTime)) && t.Before(endTime)`. -/
def LazyIndex.Contains (i : LazyIndex) (t : Int) : Bool :=
  (decide (t = i.startTime) || decide (i.startTime < t)) && decide (t < i.endTime)

/-- `LazyIndex.Expired` (src/loader.go:43-45): `endTime.Add(r).Before(t)`. -/
def LazyIndex.Expired (i : LazyIndex) (t r : Int) : Bool :=
  decide (i.endTime + r < t)

/-- `LazyIndexes.Less` (src/loader.go:59-66): `true` when `u` has the later
end time, otherwise compare start times — note the fall-through happens even
when `u`'s end time is strictly *earlier*, which is what the source does. -/
def lazyLess (u v : LazyIndex) : Bool :=
  if v.endTime < u.endTime then true else decide (v.startTime < u.startTime)

theorem Contains_iff {i : LazyIndex} {t : Int} :
    i.Contains t = true ↔ i.startTime ≤ t ∧ t < i.endTime := by
  simp only [LazyIndex.Contains, Bool.and_eq_true, Bool.or_eq_true,
    decide_eq_true_eq]
  omega

/-- `IndexLoader.indexForReferenceTime` (src/loader.go:184-191): the first
registry entry containing the reference time. -/
def indexForReferenceTime (allIndexes : List LazyIndex) (t : Int) :
    Option LazyIndex :=
  allIndexes.find? (fun idx => idx.Contains t)

/-- `IndexLoader.newIndex` (src/loader.go:239-252): bump the id seed, append
the new descriptor and re-sort with `LazyIndexes.Less`. -/
def newIndex (allIndexes : List LazyIndex) (idSeed : Nat) (startTime endTime : Int) :
    LazyIndex × List LazyIndex × Nat :=
  let i : LazyIndex :=
    { id := idSeed + 1, startTime := startTime, endTime := endTime, isNew := true }
  (i, sortGo lazyLess (allIndexes ++ [i]), idSeed + 1)

/-- `Engine.createIndex` (src/unnamed/part_004:508-529): if a descriptor with
the same start time exists, advance the new start to that descriptor's end
(one step only) and assert the advanced start is not after the end time —
the assertion panic is modelled as `none`. -/
def createIndex (allIndexes : List LazyIndex) (idSeed : Nat) (startTime endTime : Int) :
    Option (LazyIndex × List LazyIndex × Nat) :=
  match allIndexes.find? (fun i => i.startTime == startTime) with
  | some idx =>
      if endTime < idx.endTime then none
      else some (newIndex allIndexes idSeed idx.endTime endTime)
  | none => some (newIndex allIndexes idSeed startTime endTime)

/-- Go `t.Truncate(d)`: round `t` down to a multiple of `d` measured from the
zero time; `d ≤ 0` returns `t` unchanged.  (`.UTC()` only changes the
presentation location, not the instant.) -/
def truncate (t d : Int) : Int := if 0 < d then t - t % d else t

/-- `Engine.Index` restricted to the batch `[e]` (src/unnamed/part_004:
532-559, demultiplex loop): look the reference time up in the registry; on a
miss, re-check under the write lock (sequentially the same lookup) and create
a partition for `truncate(t, indexDuration)` of width `indexDuration`.
Returns the chosen descriptor, the new registry and the new id seed. -/
def indexOne (indexDuration : Int) (allIndexes : List LazyIndex) (idSeed : Nat)
    (t : Int) : Option (LazyIndex × List LazyIndex × Nat) :=
  match indexForReferenceTime allIndexes t with
  | some i => some (i, allIndexes, idSeed)
  | none =>
      match indexForReferenceTime allIndexes t with
      | some i => some (i, allIndexes, idSeed)
      | none =>
          createIndex allIndexes idSeed (truncate t indexDuration)
            (truncate t indexDuration + indexDuration)

/-- C2, counterexample: with index duration 10 and a registry holding the
(disk-loaded) descriptor `[0, 5)`, the event at reference time 7 is contained
in no descriptor, the truncated boundary is 0, yet the created partition
starts at 5 (the colliding descriptor's end), not at the truncation boundary
0 as the claim states. -/
theorem index_new_partition_counterexample :
    indexForReferenceTime [⟨1, 0, 5, false⟩] 7 = none ∧
    truncate 7 10 = 0 ∧
    (indexOne 10 [⟨1, 0, 5, false⟩] 1 7).map (fun r => r.1.startTime) = some 5 := by
  decide

/-- C2, amended: for a positive index duration and a registry in which at
most one descriptor contains the reference time, `index([e])` always
succeeds and afterwards exactly one descriptor contains `e`'s reference time
(end exclusive); when no existing descriptor contained it, the new
descriptor's end is `truncate(t, d) + d` and its start is `truncate(t, d)`
unless an existing descriptor already had that start, in which case the start
is that descriptor's end. -/
theorem index_single_event (d : Int) (reg : List LazyIndex) (seed : Nat)
    (t : Int) (hd : 0 < d)
    (huniq : ∀ i ∈ reg, ∀ j ∈ reg,
      i.Contains t = true → j.Contains t = true → i = j) :
    ∃ i reg' seed', indexOne d reg seed t = some (i, reg', seed') ∧
      i.Contains t = true ∧
      (∀ j ∈ reg', j.Contains t = true → j = i) ∧
      (indexForReferenceTime reg t = none →
        i.endTime = truncate t d + d ∧
        (i.startTime = truncate t d ∨
          ∃ j ∈ reg, j.startTime = truncate t d ∧ i.startTime = j.endTime)) := by
  have htr1 : truncate t d ≤ t := by
    have h1 : 0 ≤ t % d := Int.emod_nonneg t (by omega)
    simp only [truncate, if_pos hd]
    omega
  have htr2 : t < truncate t d + d := by
    have h2 : t % d < d := Int.emod_lt_of_pos t hd
    simp only [truncate, if_pos hd]
    omega
  rcases hfind : indexForReferenceTime reg t with _ | i
  · have hnone : ∀ j ∈ reg, ¬ (j.Contains t = true) := by
      intro j hj
      exact List.find?_eq_none.mp hfind j hj
    rcases hcoll : reg.find? (fun i => i.startTime == truncate t d) with _ | jdx
    · refine ⟨⟨seed + 1, truncate t d, truncate t d + d, true⟩,
        sortGo lazyLess (reg ++ [⟨seed + 1, truncate t d, truncate t d + d, true⟩]),
        seed + 1, ?_, ?_, ?_, ?_⟩
      · simp [indexOne, hfind, createIndex, hcoll, newIndex]
      · exact Contains_iff.mpr ⟨htr1, htr2⟩
      · intro j hj hjc
        have hj' : j ∈ reg ++ [⟨seed + 1, truncate t d, truncate t d + d, true⟩] :=
          (sortGo_perm lazyLess _).mem_iff.mp hj
        rcases List.mem_append.mp hj' with hj'' | hj''
        · exact absurd hjc (hnone j hj'')
        · simpa using hj''
      · intro
        exact ⟨rfl, Or.inl rfl⟩
    · have hjdx_mem : jdx ∈ reg := List.mem_of_find?_eq_some hcoll
      have hjdx_start : jdx.startTime = truncate t d := by
        have := List.find?_some hcoll
        simpa using this
      have hjdx_end : jdx.endTime ≤ t := by
        have hc := hnone jdx hjdx_mem
        rw [Contains_iff] at hc
        push_neg at hc
        exact hc (by omega)
      have hassert : ¬ (truncate t d + d < jdx.endTime) := by omega
      refine ⟨⟨seed + 1, jdx.endTime, truncate t d + d, true⟩,
        sortGo lazyLess (reg ++ [⟨seed + 1, jdx.endTime, truncate t d + d, true⟩]),
        seed + 1, ?_, ?_, ?_, ?_⟩
      · simp [indexOne, hfind, createIndex, hcoll, newIndex, hassert]
      · refine Contains_iff.mpr ⟨hjdx_end, ?_⟩
        show t < truncate t d + d
        omega
      · intro j hj hjc
        have hj' : j ∈ reg ++ [⟨seed + 1, jdx.endTime, truncate t d + d, true⟩] :=
          (sortGo_perm lazyLess _).mem_iff.mp hj
        rcases List.mem_append.mp hj' with hj'' | hj''
        · exact absurd hjc (hnone j hj'')
        · simpa using hj''
      · intro
        exact ⟨rfl, Or.inr ⟨jdx, hjdx_mem, hjdx_start, rfl⟩⟩
  · have hfind' : reg.find? (fun idx => idx.Contains t) = some i := hfind
    have hic : i.Contains t = true := by simpa using List.find?_some hfind'
    have him : i ∈ reg := List.mem_of_find?_eq_some hfind'
    refine ⟨i, reg, seed, ?_, hic, ?_, ?_⟩
    · simp [indexOne, hfind]
    · intro j hj hjc
      exact huniq j hj i him hjc hic
    · intro hn
      exact absurd hn (by simp)

/-- Witness for `index_single_event`: empty registry, duration 10, event at
time 7. -/
theorem index_single_event_witness :
    (0 : Int) < 10 ∧
    ∃ i reg' seed', indexOne 10 ([] : List LazyIndex) 0 7 = some (i, reg', seed') ∧
      i.Contains 7 = true ∧
      (∀ j ∈ reg', j.Contains 7 = true → j = i) ∧
      (indexForReferenceTime [] 7 = none →
        i.endTime = truncate 7 10 + 10 ∧
        (i.startTime = truncate 7 10 ∨
          ∃ j ∈ ([] : List LazyIndex), j.startTime = truncate 7 10 ∧
            i.startTime = j.endTime)) :=
  ⟨by decide, index_single_event 10 [] 0 7 (by decide) (by intro i hi; simp at hi)⟩

/-- The registry order the spec claims: end time descending, then start time
descending. -/
def endStartDesc (a b : LazyIndex) : Prop :=
  b.endTime < a.endTime ∨ (b.endTime = a.endTime ∧ b.startTime ≤ a.startTime)

instance (a b : LazyIndex) : Decidable (endStartDesc a b) := by
  unfold endStartDesc
  exact inferInstance

/-- C3, counterexample.  First conjunct: from the reachable registry
`[[0,5), [5,8)]`, creating `[0,10)` collides with start 0, advances only one
step to start 5 and so produces two descriptors with start time 5 — the
claimed start-uniqueness invariant fails (the source comments this very gap:
"XXX This could still align with another start time!").  Second conjunct:
creating `[5,6)` into registry `[[0,10)]` leaves the list ordered
`[[5,6), [0,10)]` because `LazyIndexes.Less` falls through to the start-time
comparison even when the end time is strictly smaller, so the claimed
`end desc, start desc` order fails as well. -/
theorem registry_invariant_counterexample :
    ((createIndex [⟨1, 0, 5, false⟩, ⟨2, 5, 8, false⟩] 2 0 10).map
        (fun r => r.2.1.map (fun i => (i.startTime, i.endTime))) =
      some [(5, 10), (5, 8), (0, 5)]) ∧
    ((createIndex [⟨1, 0, 10, false⟩] 1 5 6).map
        (fun r => r.2.1.map (fun i => (i.startTime, i.endTime))) =
      some [(5, 6), (0, 10)]) ∧
    ((createIndex [⟨1, 0, 5, false⟩, ⟨2, 5, 8, false⟩] 2 0 10).map
        (fun r => decide (r.2.1.Pairwise (fun a b => a.startTime ≠ b.startTime))) =
      some false) ∧
    ((createIndex [⟨1, 0, 10, false⟩] 1 5 6).map
        (fun r => decide (r.2.1.Pairwise endStartDesc)) =
      some false) := by
  decide

/-- When `LazyIndexes.Less` agrees with end-time comparison on the elements
(and equal ends force equal starts), Go's sort yields the
`end desc, start desc` order. -/
theorem sortGo_endStartDesc (l : List LazyIndex)
    (hkey : ∀ u ∈ l, ∀ v ∈ l, (lazyLess u v = true ↔ v.endTime < u.endTime))
    (heq : ∀ u ∈ l, ∀ v ∈ l, u.endTime = v.endTime → u.startTime = v.startTime) :
    (sortGo lazyLess l).Pairwise endStartDesc := by
  have hasym : ∀ a ∈ {z | z ∈ l}, ∀ b ∈ {z | z ∈ l},
      lazyLess a b = true → lazyLess b a = false := by
    intro a ha b hb hab
    have h1 := (hkey a ha b hb).mp hab
    by_contra hc
    have hba : lazyLess b a = true := by
      revert hc; cases lazyLess b a <;> simp
    have h2 := (hkey b hb a ha).mp hba
    omega
  have hneg : ∀ a ∈ {z | z ∈ l}, ∀ b ∈ {z | z ∈ l}, ∀ c ∈ {z | z ∈ l},
      lazyLess a b = false → lazyLess b c = false → lazyLess a c = false := by
    intro a ha b hb c hc hab hbc
    have h1 : ¬ b.endTime < a.endTime := fun h => by
      have hx := (hkey a ha b hb).mpr h
      rw [hx] at hab
      exact Bool.noConfusion hab
    have h2 : ¬ c.endTime < b.endTime := fun h => by
      have hx := (hkey b hb c hc).mpr h
      rw [hx] at hbc
      exact Bool.noConfusion hbc
    by_contra hcon
    have hac : lazyLess a c = true := by
      revert hcon; cases lazyLess a c <;> simp
    have h3 := (hkey a ha c hc).mp hac
    omega
  have hsorted := sortGo_pairwise (S := {z | z ∈ l}) hasym hneg l (fun z hz => hz)
  refine hsorted.imp_of_mem ?_
  intro a b ha hb hab
  have ha' : a ∈ l := (sortGo_perm lazyLess _).mem_iff.mp ha
  have hb' : b ∈ l := (sortGo_perm lazyLess _).mem_iff.mp hb
  have h1 : ¬ a.endTime < b.endTime := by
    intro h
    have hba := (hkey b hb' a ha').mpr h
    rw [hba] at hab
    exact Bool.noConfusion hab
  rcases lt_or_eq_of_le (not_lt.mp h1) with h2 | h2
  · exact Or.inl h2
  · exact Or.inr ⟨h2, le_of_eq (heq b hb' a ha' h2)⟩

/-- C3, amended: `create` advances a colliding start time one step only (to
the colliding descriptor's end time, which may itself equal another
descriptor's start, so start-uniqueness is not invariant); the new registry
is a permutation of the old plus the new descriptor; and it is sorted by
`end desc, start desc` provided `LazyIndexes.Less` is order-consistent on the
resulting descriptors (it compares ends, falling through to starts, so
consistency needs the hypotheses below — engine-created non-overlapping
constant-width partitions satisfy them); `retire` (a filter) always preserves
the `end desc, start desc` order. -/
theorem createIndex_registry (reg : List LazyIndex) (seed : Nat) (s e : Int) :
    (∀ i reg' seed', createIndex reg seed s e = some (i, reg', seed') →
      List.Perm reg' (i :: reg) ∧
      i.endTime = e ∧
      ((∀ j ∈ reg, j.startTime ≠ s) → i.startTime = s) ∧
      (∀ j, reg.find? (fun x => x.startTime == s) = some j →
        i.startTime = j.endTime) ∧
      ((∀ u ∈ i :: reg, ∀ v ∈ i :: reg,
          (lazyLess u v = true ↔ v.endTime < u.endTime)) →
        (∀ u ∈ i :: reg, ∀ v ∈ i :: reg,
          u.endTime = v.endTime → u.startTime = v.startTime) →
        reg'.Pairwise endStartDesc)) ∧
    (∀ (p : LazyIndex → Bool) (reg0 : List LazyIndex),
      reg0.Pairwise endStartDesc → (reg0.filter p).Pairwise endStartDesc) := by
  constructor
  · intro i reg' seed' hcr
    have hsortedOf : reg' = sortGo lazyLess (reg ++ [i]) →
        (∀ u ∈ i :: reg, ∀ v ∈ i :: reg,
          (lazyLess u v = true ↔ v.endTime < u.endTime)) →
        (∀ u ∈ i :: reg, ∀ v ∈ i :: reg,
          u.endTime = v.endTime → u.startTime = v.startTime) →
        reg'.Pairwise endStartDesc := by
      intro hreg' hkey heq
      have hmem : ∀ z ∈ reg ++ [i], z ∈ i :: reg := by
        intro z hz
        rcases List.mem_append.mp hz with hz' | hz'
        · exact List.mem_cons_of_mem i hz'
        · have hzi : z = i := by simpa using hz'
          rw [hzi]
          exact List.mem_cons_self i reg
      rw [hreg']
      exact sortGo_endStartDesc (reg ++ [i])
        (fun u hu v hv => hkey u (hmem u hu) v (hmem v hv))
        (fun u hu v hv => heq u (hmem u hu) v (hmem v hv))
    rcases hf : reg.find? (fun x => x.startTime == s) with _ | j
    · rw [createIndex, hf] at hcr
      have hcr' : ((⟨seed + 1, s, e, true⟩ : LazyIndex),
          sortGo lazyLess (reg ++ [(⟨seed + 1, s, e, true⟩ : LazyIndex)]),
          seed + 1) = (i, reg', seed') := by
        simpa [newIndex] using hcr
      simp only [Prod.mk.injEq] at hcr'
      obtain ⟨hi, hreg', -⟩ := hcr'
      subst hi
      refine ⟨?_, rfl, fun _ => rfl, ?_, ?_⟩
      · rw [← hreg']
        exact (sortGo_perm lazyLess _).trans (List.perm_append_singleton _ reg)
      · intro j hj
        rw [hf] at hj
        exact absurd hj (by simp)
      · exact hsortedOf hreg'.symm
    · rw [createIndex, hf] at hcr
      have hcr2 : (if e < j.endTime then none
          else some (newIndex reg seed j.endTime e)) = some (i, reg', seed') := hcr
      by_cases hassert : e < j.endTime
      · rw [if_pos hassert] at hcr2
        exact absurd hcr2 (by simp)
      · rw [if_neg hassert] at hcr2
        have hcr' : ((⟨seed + 1, j.endTime, e, true⟩ : LazyIndex),
            sortGo lazyLess (reg ++ [(⟨seed + 1, j.endTime, e, true⟩ : LazyIndex)]),
            seed + 1) = (i, reg', seed') := by
          simpa [newIndex] using hcr2
        simp only [Prod.mk.injEq] at hcr'
        obtain ⟨hi, hreg', -⟩ := hcr'
        subst hi
        refine ⟨?_, rfl, ?_, ?_, ?_⟩
        · rw [← hreg']
          exact (sortGo_perm lazyLess _).trans (List.perm_append_singleton _ reg)
        · intro hnc
          exfalso
          have hjmem : j ∈ reg := List.mem_of_find?_eq_some hf
          have hjs : j.startTime = s := by simpa using List.find?_some hf
          exact hnc j hjmem hjs
        · intro j' hj'
          rw [hf] at hj'
          have : j = j' := by simpa using hj'
          rw [← this]
        · exact hsortedOf hreg'.symm
  · intro p reg0 hp
    exact hp.filter p

/-- Witness for `createIndex_registry`: creating `[0,10)` into the registry
`[[10,20)]` (no collision) yields a registry sorted by `end desc`. -/
theorem createIndex_registry_witness :
    ([(⟨1, 10, 20, false⟩ : LazyIndex), ⟨2, 0, 10, true⟩].Pairwise endStartDesc) ∧
    (([(⟨1, 10, 20, false⟩ : LazyIndex)].filter
        (fun i => !(i.Expired 100 1000))).Pairwise endStartDesc) :=
  ⟨((createIndex_registry [⟨1, 10, 20, false⟩] 1 0 10).1
      ⟨2, 0, 10, true⟩ [⟨1, 10, 20, false⟩, ⟨2, 0, 10, true⟩] 2
      (by decide)).2.2.2.2 (by decide) (by decide),
    (createIndex_registry [⟨1, 10, 20, false⟩] 1 0 10).2
      (fun i => !(i.Expired 100 1000)) [⟨1, 10, 20, false⟩] (by decide)⟩

/-! ### Open-partition pool (`src/pool.go`)

A `resource` slot carries the bound descriptor id, a reference count and the
open backing (`index`, identified here by the id it was opened for; `none`
when no backing is open or it has been closed).  `resourceSemaphore` is the
pool.  The Go methods run under the pool mutex; each atomic section becomes
one step function: `tryAcquireStep` is `TryAcquire` up to its first return
or its first wait, `wakeRetryStep` is one re-entry of the `for !rs.isClosed`
loop after a wake-up (note it rescans only for a free slot, not for a
matching id), `Release` and `Close` are the corresponding methods.  A
context cancellation during the wait returns `ctx.Err()` without touching
any slot, so it is a step that leaves the pool unchanged. -/

structure Rsrc where
  id : Nat
  refCounter : Int
  index : Option Nat
deriving DecidableEq, Repr

structure RSem where
  isClosed : Bool
  resources : List Rsrc
deriving DecidableEq, Repr

/-- Index of the first list element satisfying `p` (the Go `for … range`
scans in `TryAcquire`). -/
def findIdxGo (p : α → Bool) : List α → Option Nat
  | [] => none
  | x :: xs => if p x then some 0 else (findIdxGo p xs).map (· + 1)

/-- Replace the element at position `n` by `f` of it. -/
def modifyIdx : Nat → (α → α) → List α → List α
  | _, _, [] => []
  | 0, f, x :: xs => f x :: xs
  | n + 1, f, x :: xs => x :: modifyIdx n f xs

inductive AcqOut
  | ok (pos : Nat)
  | notFound
  | waits
  | closedErr
deriving DecidableEq, Repr

/-- `r.refCounter++` on a slot whose id already matches. -/
def incRef (r : Rsrc) : Rsrc := { r with refCounter := r.refCounter + 1 }

/-- Rebind a free slot: `r.id = id; r.refCounter++` (backing untouched). -/
def bindSlot (id : Nat) (r : Rsrc) : Rsrc :=
  { r with id := id, refCounter := r.refCounter + 1 }

/-- `resourceSemaphore.TryAcquire` (src/pool.go:63-107) up to its first
return or wait: scan for a slot already carrying `id` (increment and return);
with `donotWait` report not-found; if the pool is closed the wait loop is
never entered and "pool is closed" is returned; otherwise scan for a slot
with reference count 0 and rebind it (leaving `index` untouched); else the
caller must wait. -/
def tryAcquireStep (rs : RSem) (id : Nat) (donotWait : Bool) : AcqOut × RSem :=
  match findIdxGo (fun r => r.id == id) rs.resources with
  | some pos =>
      (AcqOut.ok pos, { rs with resources := modifyIdx pos incRef rs.resources })
  | none =>
      if donotWait then (AcqOut.notFound, rs)
      else if rs.isClosed then (AcqOut.closedErr, rs)
      else
        match findIdxGo (fun r => r.refCounter == 0) rs.resources with
        | some pos =>
            (AcqOut.ok pos,
              { rs with resources := modifyIdx pos (bindSlot id) rs.resources })
        | none => (AcqOut.waits, rs)

/-- One re-entry of `TryAcquire`'s `for !rs.isClosed` loop after a wake-up
(src/pool.go:87-105): the matching-id scan is *not* repeated — only the
closed flag is checked and the free-slot scan re-run. -/
def wakeRetryStep (rs : RSem) (id : Nat) : AcqOut × RSem :=
  if rs.isClosed then (AcqOut.closedErr, rs)
  else
    match findIdxGo (fun r => r.refCounter == 0) rs.resources with
    | some pos =>
        (AcqOut.ok pos,
          { rs with resources := modifyIdx pos (bindSlot id) rs.resources })
    | none => (AcqOut.waits, rs)

/-- The body of `resourceSemaphore.Release` (src/pool.go:109-127) for one
slot: decrement, and when the count reaches 0 on a closed pool also close
the backing. -/
def releaseSlot (closed : Bool) (r : Rsrc) : Rsrc :=
  let r' := { r with refCounter := r.refCounter - 1 }
  if r'.refCounter = 0 ∧ closed = true then { r' with index := none } else r'

/-- `resourceSemaphore.Release` (src/pool.go:109-127). -/
def Release (rs : RSem) (pos : Nat) : RSem :=
  { rs with resources := modifyIdx pos (releaseSlot rs.isClosed) rs.resources }

/-- `resourceSemaphore.Close` (src/pool.go:36-55): mark closed and close the
backing of every slot with reference count 0. -/
def Close (rs : RSem) : RSem :=
  { isClosed := true,
    resources := rs.resources.map (fun r =>
      if r.refCounter = 0 then { r with index := none } else r) }

/-- Number of slots currently carrying `id`. -/
def countId (rs : RSem) (id : Nat) : Nat :=
  rs.resources.countP (fun r => r.id == id)

/-- Sum of all slot reference counts (= number of outstanding leases). -/
def totalRef (rs : RSem) : Int :=
  (rs.resources.map (fun r => r.refCounter)).sum

theorem findIdxGo_spec {p : α → Bool} :
    ∀ {l : List α} {pos : Nat}, findIdxGo p l = some pos →
      ∃ r, l[pos]? = some r ∧ p r = true
  | [], pos, h => by simp [findIdxGo] at h
  | x :: xs, pos, h => by
    by_cases hx : p x
    · simp only [findIdxGo, if_pos hx, Option.some.injEq] at h
      subst h
      exact ⟨x, by simp, hx⟩
    · simp only [findIdxGo, if_neg hx] at h
      rcases hrec : findIdxGo p xs with _ | q
      · rw [hrec] at h
        simp at h
      · rw [hrec] at h
        simp only [Option.map_some', Option.some.injEq] at h
        subst h
        rcases findIdxGo_spec hrec with ⟨r, hr, hpr⟩
        exact ⟨r, by simpa using hr, hpr⟩

theorem findIdxGo_none {p : α → Bool} :
    ∀ {l : List α}, findIdxGo p l = none ↔ ∀ r ∈ l, p r = false
  | [] => by simp [findIdxGo]
  | x :: xs => by
    by_cases hx : p x
    · simp [findIdxGo, hx]
    · simp only [findIdxGo, if_neg hx]
      rw [Option.map_eq_none']
      rw [findIdxGo_none]
      constructor
      · intro h r hr
        rcases List.mem_cons.mp hr with rfl | hr'
        · revert hx; cases p r <;> simp
        · exact h r hr'
      · intro h r hr
        exact h r (List.mem_cons_of_mem x hr)

theorem modifyIdx_getElem? (f : α → α) :
    ∀ (l : List α) (pos : Nat), (modifyIdx pos f l)[pos]? = (l[pos]?).map f
  | [], pos => by cases pos <;> simp [modifyIdx]
  | x :: xs, 0 => by simp [modifyIdx]
  | x :: xs, pos + 1 => by
    simp only [modifyIdx]
    simpa using modifyIdx_getElem? f xs pos

theorem countP_modifyIdx_eq {q : α → Bool} {f : α → α}
    (hf : ∀ x, q (f x) = q x) :
    ∀ (pos : Nat) (l : List α), (modifyIdx pos f l).countP q = l.countP q
  | pos, [] => by cases pos <;> rfl
  | 0, x :: xs => by simp [modifyIdx, List.countP_cons, hf]
  | pos + 1, x :: xs => by
    simp [modifyIdx, List.countP_cons, countP_modifyIdx_eq hf pos xs]

theorem countP_modifyIdx_of_zero {q : α → Bool} {f : α → α} :
    ∀ (pos : Nat) (l : List α), l.countP q = 0 →
      (modifyIdx pos f l).countP q ≤ 1
  | pos, [], _ => by cases pos <;> simp [modifyIdx]
  | 0, x :: xs, h => by
    have hall := List.countP_eq_zero.mp h
    have hxs : xs.countP q = 0 :=
      List.countP_eq_zero.mpr (fun a ha => hall a (List.mem_cons_of_mem x ha))
    simp only [modifyIdx, List.countP_cons, hxs]
    by_cases hq : q (f x) <;> simp [hq]
  | pos + 1, x :: xs, h => by
    have hall := List.countP_eq_zero.mp h
    have hqx : q x = false := by
      have hx := hall x (List.mem_cons_self x xs)
      revert hx; cases q x <;> simp
    have hxs : xs.countP q = 0 :=
      List.countP_eq_zero.mpr (fun a ha => hall a (List.mem_cons_of_mem x ha))
    have hrec := countP_modifyIdx_of_zero (q := q) (f := f) pos xs hxs
    simp only [modifyIdx, List.countP_cons, hqx]
    simpa using hrec

theorem countP_modifyIdx_mono {q : α → Bool} {f : α → α}
    (hf : ∀ x, q (f x) = true → q x = true) :
    ∀ (pos : Nat) (l : List α), (modifyIdx pos f l).countP q ≤ l.countP q
  | pos, [] => by cases pos <;> simp [modifyIdx]
  | 0, x :: xs => by
    simp only [modifyIdx, List.countP_cons]
    have h1 : (if q (f x) then 1 else 0) ≤ (if q x then 1 else 0) := by
      by_cases hq : q (f x) = true
      · simp [hq, hf x hq]
      · simp only [hq, if_false]
        by_cases hq' : q x <;> simp [hq']
    omega
  | pos + 1, x :: xs => by
    have := countP_modifyIdx_mono hf pos xs
    simp only [modifyIdx, List.countP_cons]
    omega

theorem sum_map_modifyIdx (g : α → Int) (f : α → α) :
    ∀ (l : List α) (pos : Nat) (r : α), l[pos]? = some r →
      ((modifyIdx pos f l).map g).sum = (l.map g).sum + (g (f r) - g r)
  | [], pos, r, h => by cases pos <;> simp at h
  | x :: xs, 0, r, h => by
    have : x = r := by simpa using h
    subst this
    simp [modifyIdx]
    ring
  | x :: xs, pos + 1, r, h => by
    have hr : xs[pos]? = some r := by simpa using h
    simp only [modifyIdx, List.map_cons, List.sum_cons,
      sum_map_modifyIdx g f xs pos r hr]
    ring

inductive LoadResult
  | ok (pos : Nat)
  | err (msg : String)
deriving DecidableEq, Repr

/-- `r.index.Close(); r.index = nil` on a stale slot. -/
def clearIndex (r : Rsrc) : Rsrc := { r with index := none }

/-- Store a freshly opened backing for descriptor `ix` on the slot. -/
def setIndex (ix : Nat) (r : Rsrc) : Rsrc := { r with index := some ix }

/-- `IndexLoader.Load` (src/loader.go:293-342): acquire a slot for the
descriptor id via `TryAcquire` (the `waits` outcome models the call parked on
the condition; a context cancellation then returns `ctx.Err()` without
re-locking, leaving the pool untouched).  Under the slot mutex: if the slot's
backing is present and was opened for the slot's current id, reuse it;
otherwise close the stale backing (failure: release the lease and return the
close error), then open a backing for the descriptor (`NewIndex` for a fresh
partition, `OpenIndex` otherwise — both abstracted by the `openOk` oracle;
failure: release the lease and return the open error). -/
def Load (rs : RSem) (liId : Nat) (cancelled openOk closeOk : Bool) :
    RSem × LoadResult :=
  match tryAcquireStep rs liId false with
  | (AcqOut.ok pos, rs1) =>
      match rs1.resources[pos]? with
      | none => (rs1, LoadResult.err "bad slot")
      | some r =>
        match r.index with
        | some ixId =>
            if r.id = ixId then (rs1, LoadResult.ok pos)
            else if closeOk then
              let rs2 : RSem :=
                { rs1 with resources := modifyIdx pos clearIndex rs1.resources }
              if openOk then
                ({ rs2 with resources := modifyIdx pos (setIndex liId) rs2.resources },
                  LoadResult.ok pos)
              else (Release rs2 pos, LoadResult.err "open failed")
            else (Release rs1 pos, LoadResult.err "close failed")
        | none =>
            if openOk then
              ({ rs1 with resources := modifyIdx pos (setIndex liId) rs1.resources },
                LoadResult.ok pos)
            else (Release rs1 pos, LoadResult.err "open failed")
  | (AcqOut.waits, rs1) =>
      if cancelled then (rs1, LoadResult.err "context canceled")
      else (rs1, LoadResult.err "blocked")
  | (AcqOut.closedErr, rs1) => (rs1, LoadResult.err "pool is closed")
  | (AcqOut.notFound, rs1) => (rs1, LoadResult.err "not found")

/-- Exhaustive description of one `TryAcquire` atomic section. -/
theorem tryAcquireStep_cases (rs : RSem) (id : Nat) (dw : Bool) :
    (∃ pos r, findIdxGo (fun r => r.id == id) rs.resources = some pos ∧
      rs.resources[pos]? = some r ∧ (r.id == id) = true ∧
      tryAcquireStep rs id dw =
        (AcqOut.ok pos, { rs with resources := modifyIdx pos incRef rs.resources })) ∨
    (∃ pos r, findIdxGo (fun r => r.id == id) rs.resources = none ∧
      findIdxGo (fun r => r.refCounter == 0) rs.resources = some pos ∧
      rs.resources[pos]? = some r ∧ (r.refCounter == 0) = true ∧
      dw = false ∧ rs.isClosed = false ∧
      tryAcquireStep rs id dw =
        (AcqOut.ok pos, { rs with resources := modifyIdx pos (bindSlot id) rs.resources })) ∨
    (tryAcquireStep rs id dw = (AcqOut.notFound, rs)) ∨
    (tryAcquireStep rs id dw = (AcqOut.closedErr, rs)) ∨
    (tryAcquireStep rs id dw = (AcqOut.waits, rs)) := by
  rcases hf : findIdxGo (fun r => r.id == id) rs.resources with _ | pos
  · by_cases hdw : dw
    · refine Or.inr (Or.inr (Or.inl ?_))
      simp [tryAcquireStep, hf, hdw]
    · by_cases hcl : rs.isClosed
      · refine Or.inr (Or.inr (Or.inr (Or.inl ?_)))
        simp [tryAcquireStep, hf, hdw, hcl]
      · rcases hfree : findIdxGo (fun r => r.refCounter == 0) rs.resources
          with _ | pos
        · refine Or.inr (Or.inr (Or.inr (Or.inr ?_)))
          simp [tryAcquireStep, hf, hdw, hcl, hfree]
        · rcases findIdxGo_spec hfree with ⟨r, hr, hpr⟩
          refine Or.inr (Or.inl ⟨pos, r, hf, hfree, hr, hpr, by simpa using hdw,
            by simpa using hcl, ?_⟩)
          simp [tryAcquireStep, hf, hdw, hcl, hfree]
  · rcases findIdxGo_spec hf with ⟨r, hr, hpr⟩
    exact Or.inl ⟨pos, r, hf, hr, hpr, by simp [tryAcquireStep, hf]⟩

/-- C4, counterexample: both slots busy with other ids, two acquires for
id 7 pass the matching scan and wait; as each slot frees up, each woken
acquire re-runs only the free-slot scan (not the id scan) and binds a fresh
slot, leaving two slots bound to id 7. -/
theorem pool_duplicate_id_counterexample :
    (tryAcquireStep ⟨false, [⟨1, 1, none⟩, ⟨2, 1, none⟩]⟩ 7 false).1 =
      AcqOut.waits ∧
    countId ((wakeRetryStep (Release
      ((wakeRetryStep (Release ⟨false, [⟨1, 1, none⟩, ⟨2, 1, none⟩]⟩ 0) 7).2)
      1) 7).2) 7 = 2 := by
  decide

/-- C4, amended: acquire binds the requested id onto a slot only when that
slot's reference count is zero, and a single non-waiting acquire step
preserves "at most one slot carries any given id"; but after waking from a
wait the code retries only the free-slot scan — it does not re-scan for a
slot already carrying the id — so two waiters for the same id can bind two
distinct slots and the at-most-one invariant is not maintained across waits
(nor does it hold of the initial pool, whose slots all carry id 0). -/
theorem acquire_id_uniqueness (rs : RSem) (id : Nat) (dw : Bool) :
    (∀ pos rs', tryAcquireStep rs id dw = (AcqOut.ok pos, rs') →
      ∃ r, rs.resources[pos]? = some r ∧ (r.id = id ∨ r.refCounter = 0)) ∧
    (∀ pos rs', wakeRetryStep rs id = (AcqOut.ok pos, rs') →
      ∃ r, rs.resources[pos]? = some r ∧ r.refCounter = 0 ∧
        rs'.resources[pos]? = some (bindSlot id r)) ∧
    (∀ id0, countId rs id0 ≤ 1 → countId (tryAcquireStep rs id dw).2 id0 ≤ 1) := by
  refine ⟨?_, ?_, ?_⟩
  · intro pos rs' hstep
    rcases tryAcquireStep_cases rs id dw with
      ⟨p, r, hf, hr, hpr, heq⟩ | ⟨p, r, hf, hfree, hr, hpr, -, -, heq⟩ |
      heq | heq | heq
    · have h := heq.symm.trans hstep
      simp only [Prod.mk.injEq, AcqOut.ok.injEq] at h
      obtain ⟨rfl, -⟩ := h
      exact ⟨r, hr, Or.inl (by simpa using hpr)⟩
    · have h := heq.symm.trans hstep
      simp only [Prod.mk.injEq, AcqOut.ok.injEq] at h
      obtain ⟨rfl, -⟩ := h
      exact ⟨r, hr, Or.inr (by simpa using hpr)⟩
    · have h := heq.symm.trans hstep
      simp at h
    · have h := heq.symm.trans hstep
      simp at h
    · have h := heq.symm.trans hstep
      simp at h
  · intro pos rs' hstep
    rw [wakeRetryStep] at hstep
    by_cases hcl : rs.isClosed
    · rw [if_pos hcl] at hstep
      cases hstep
    · rw [if_neg hcl] at hstep
      rcases hfree : findIdxGo (fun r => r.refCounter == 0) rs.resources
        with _ | p
      · rw [hfree] at hstep
        cases hstep
      · rw [hfree] at hstep
        simp only [Prod.mk.injEq, AcqOut.ok.injEq] at hstep
        obtain ⟨rfl, rfl⟩ := hstep
        rcases findIdxGo_spec hfree with ⟨r, hr, hpr⟩
        refine ⟨r, hr, by simpa using hpr, ?_⟩
        show (modifyIdx p (bindSlot id) rs.resources)[p]? = some (bindSlot id r)
        rw [modifyIdx_getElem? (bindSlot id) rs.resources p, hr]
        rfl
  · intro id0 hle
    rcases tryAcquireStep_cases rs id dw with
      ⟨p, r, hf, hr, hpr, heq⟩ | ⟨p, r, hf, hfree, hr, hpr, -, -, heq⟩ |
      heq | heq | heq
    · rw [heq]
      show (modifyIdx p incRef rs.resources).countP (fun r => r.id == id0) ≤ 1
      rw [countP_modifyIdx_eq (q := fun r => r.id == id0) (f := incRef)
        (fun x => rfl) p rs.resources]
      exact hle
    · rw [heq]
      show (modifyIdx p (bindSlot id) rs.resources).countP
        (fun r => r.id == id0) ≤ 1
      by_cases hid : id0 = id
      · subst hid
        have hzero : rs.resources.countP (fun r => r.id == id0) = 0 :=
          List.countP_eq_zero.mpr (fun a ha => by
            have := findIdxGo_none.mp hf a ha
            simpa using this)
        exact countP_modifyIdx_of_zero p rs.resources hzero
      · refine le_trans (countP_modifyIdx_mono ?_ p rs.resources) hle
        intro x hx
        exfalso
        have : id = id0 := by simpa [bindSlot] using hx
        exact hid this.symm
    · rw [heq]; exact hle
    · rw [heq]; exact hle
    · rw [heq]; exact hle

/-- Witness for `acquire_id_uniqueness` at a concrete single-slot pool. -/
theorem acquire_id_uniqueness_witness :
    countId (tryAcquireStep ⟨false, [⟨1, 0, none⟩]⟩ 5 false).2 5 ≤ 1 :=
  (acquire_id_uniqueness ⟨false, [⟨1, 0, none⟩]⟩ 5 false).2.2 5 (by decide)

/-- C10, counterexample: with the pool closed, a slot free (reference count
0) and no slot carrying the requested id, acquire returns "pool is closed"
even though the caller would not have had to wait — the closed check guards
the whole free-slot loop, so "only callers that would have to wait observe
the closed error" is false. -/
theorem closed_pool_counterexample :
    (tryAcquireStep ⟨true, [⟨1, 0, none⟩]⟩ 2 false).1 = AcqOut.closedErr ∧
    ((⟨true, [⟨1, 0, none⟩]⟩ : RSem).resources.any
      (fun r => r.refCounter == 0)) = true := by
  decide

/-- C10, amended: after the pool is closed, an acquire whose id matches a
slot still succeeds and increments that slot's count (total +1, backing
possibly already closed); *every* acquire whose id matches no slot observes
the "pool is closed" error (whether or not a free slot is available), with
the pool unchanged. -/
theorem closed_pool_acquire (rs : RSem) (id : Nat) (hclosed : rs.isClosed = true) :
    (∀ pos r, findIdxGo (fun r => r.id == id) rs.resources = some pos →
      rs.resources[pos]? = some r →
      tryAcquireStep rs id false =
        (AcqOut.ok pos, { rs with resources := modifyIdx pos incRef rs.resources }) ∧
      totalRef (tryAcquireStep rs id false).2 = totalRef rs + 1) ∧
    (findIdxGo (fun r => r.id == id) rs.resources = none →
      tryAcquireStep rs id false = (AcqOut.closedErr, rs)) := by
  constructor
  · intro pos r hf hr
    have hstep : tryAcquireStep rs id false =
        (AcqOut.ok pos, { rs with resources := modifyIdx pos incRef rs.resources }) := by
      simp [tryAcquireStep, hf]
    refine ⟨hstep, ?_⟩
    rw [hstep]
    show totalRef { rs with resources := modifyIdx pos incRef rs.resources } =
      totalRef rs + 1
    unfold totalRef
    rw [sum_map_modifyIdx (fun r => r.refCounter) incRef rs.resources pos r hr]
    simp [incRef]
  · intro hf
    simp [tryAcquireStep, hf, hclosed]

/-- Witness for `closed_pool_acquire`: a closed pool with a free slot and a
non-matching id observes the closed error; a matching id still succeeds. -/
theorem closed_pool_acquire_witness :
    tryAcquireStep ⟨true, [⟨1, 0, none⟩]⟩ 2 false =
      (AcqOut.closedErr, ⟨true, [⟨1, 0, none⟩]⟩) ∧
    totalRef (tryAcquireStep ⟨true, [⟨3, 2, some 3⟩]⟩ 3 false).2 =
      totalRef ⟨true, [⟨3, 2, some 3⟩]⟩ + 1 :=
  ⟨(closed_pool_acquire ⟨true, [⟨1, 0, none⟩]⟩ 2 (by decide)).2 (by decide),
    ((closed_pool_acquire ⟨true, [⟨3, 2, some 3⟩]⟩ 3 (by decide)).1 0 ⟨3, 2, some 3⟩
      (by decide) (by decide)).2⟩

theorem totalRef_release (rs : RSem) (pos : Nat) (r : Rsrc)
    (hr : rs.resources[pos]? = some r) :
    totalRef (Release rs pos) = totalRef rs - 1 := by
  unfold totalRef Release
  rw [sum_map_modifyIdx (fun r => r.refCounter) (releaseSlot rs.isClosed)
    rs.resources pos r hr]
  have : (releaseSlot rs.isClosed r).refCounter = r.refCounter - 1 := by
    unfold releaseSlot
    by_cases h : r.refCounter - 1 = 0 ∧ rs.isClosed = true
    · simp [h]
    · simp only []
      rw [if_neg (by simpa using h)]
  rw [this]
  ring

/-- C6: lease acquisition and rebinding are atomic on failure.  If the
context is cancelled while the acquire would wait, `Load` returns the
cancellation error and the pool is exactly unchanged; more generally, every
failing `Load` leaves the pool's total reference count unchanged (the lease
taken by a successful acquire is released on the close-failure and
open-failure paths), while a successful `Load` holds exactly one new lease. -/
theorem totalRef_modify (rs : RSem) (pos : Nat) (f : Rsrc → Rsrc) (r : Rsrc)
    (hr : rs.resources[pos]? = some r) :
    totalRef { rs with resources := modifyIdx pos f rs.resources } =
      totalRef rs + ((f r).refCounter - r.refCounter) := by
  unfold totalRef
  exact sum_map_modifyIdx (fun r => r.refCounter) f rs.resources pos r hr

theorem load_failure_atomic (rs : RSem) (liId : Nat)
    (cancelled openOk closeOk : Bool) :
    (∀ e rs', Load rs liId cancelled openOk closeOk = (rs', LoadResult.err e) →
      totalRef rs' = totalRef rs) ∧
    ((tryAcquireStep rs liId false).1 = AcqOut.waits → cancelled = true →
      Load rs liId cancelled openOk closeOk =
        (rs, LoadResult.err "context canceled")) := by
  rcases tryAcquireStep_cases rs liId false with
    ⟨p, r, hf, hr, hpr, heq⟩ | ⟨p, r, hf, hfree, hr, hpr, -, -, heq⟩ |
    heq | heq | heq
  · -- matching-id acquisition, then rebinding under the slot mutex
    set rs1 : RSem := { rs with resources := modifyIdx p incRef rs.resources }
      with hrs1
    have hr1 : rs1.resources[p]? = some (incRef r) := by
      show (modifyIdx p incRef rs.resources)[p]? = some (incRef r)
      rw [modifyIdx_getElem?, hr]
      rfl
    have htot1 : totalRef rs1 = totalRef rs + 1 := by
      rw [hrs1, totalRef_modify rs p incRef r hr]
      simp [incRef]
    constructor
    · intro e rs' hload
      rw [Load, heq] at hload
      dsimp only [] at hload
      rw [hr1] at hload
      dsimp only [] at hload
      rcases hidx : r.index with _ | ix
      · rw [show (incRef r).index = none from by simp [incRef, hidx]] at hload
        dsimp only [] at hload
        by_cases hopen : openOk = true
        · rw [if_pos hopen] at hload
          exact absurd hload (by simp)
        · rw [if_neg hopen] at hload
          simp only [Prod.mk.injEq] at hload
          obtain ⟨h1, -⟩ := hload
          rw [← h1, totalRef_release rs1 p (incRef r) hr1, htot1]
          ring
      · rw [show (incRef r).index = some ix from by simp [incRef, hidx]] at hload
        dsimp only [] at hload
        by_cases hid : (incRef r).id = ix
        · rw [if_pos hid] at hload
          exact absurd hload (by simp)
        · rw [if_neg hid] at hload
          by_cases hclose : closeOk = true
          · rw [if_pos hclose] at hload
            set rs2 : RSem :=
              { rs1 with resources := modifyIdx p clearIndex rs1.resources }
              with hrs2
            have hr2 : rs2.resources[p]? = some (clearIndex (incRef r)) := by
              show (modifyIdx p clearIndex rs1.resources)[p]? = _
              rw [modifyIdx_getElem?, hr1]
              rfl
            have htot2 : totalRef rs2 = totalRef rs1 := by
              rw [hrs2, totalRef_modify rs1 p clearIndex (incRef r) hr1]
              simp [clearIndex]
            by_cases hopen : openOk = true
            · rw [if_pos hopen] at hload
              exact absurd hload (by simp)
            · rw [if_neg hopen] at hload
              simp only [Prod.mk.injEq] at hload
              obtain ⟨h1, -⟩ := hload
              rw [← h1, totalRef_release rs2 p (clearIndex (incRef r)) hr2,
                htot2, htot1]
              ring
          · rw [if_neg hclose] at hload
            simp only [Prod.mk.injEq] at hload
            obtain ⟨h1, -⟩ := hload
            rw [← h1, totalRef_release rs1 p (incRef r) hr1, htot1]
            ring
    · intro hwaits _
      rw [heq] at hwaits
      exact absurd hwaits (by simp)
  · -- free-slot rebinding acquisition
    set rs1 : RSem := { rs with resources := modifyIdx p (bindSlot liId) rs.resources }
      with hrs1
    have hr1 : rs1.resources[p]? = some (bindSlot liId r) := by
      show (modifyIdx p (bindSlot liId) rs.resources)[p]? = some (bindSlot liId r)
      rw [modifyIdx_getElem?, hr]
      rfl
    have htot1 : totalRef rs1 = totalRef rs + 1 := by
      rw [hrs1, totalRef_modify rs p (bindSlot liId) r hr]
      simp [bindSlot]
    constructor
    · intro e rs' hload
      rw [Load, heq] at hload
      dsimp only [] at hload
      rw [hr1] at hload
      dsimp only [] at hload
      rcases hidx : r.index with _ | ix
      · rw [show (bindSlot liId r).index = none from by simp [bindSlot, hidx]]
          at hload
        dsimp only [] at hload
        by_cases hopen : openOk = true
        · rw [if_pos hopen] at hload
          exact absurd hload (by simp)
        · rw [if_neg hopen] at hload
          simp only [Prod.mk.injEq] at hload
          obtain ⟨h1, -⟩ := hload
          rw [← h1, totalRef_release rs1 p (bindSlot liId r) hr1, htot1]
          ring
      · rw [show (bindSlot liId r).index = some ix from by simp [bindSlot, hidx]]
          at hload
        dsimp only [] at hload
        by_cases hid : (bindSlot liId r).id = ix
        · rw [if_pos hid] at hload
          exact absurd hload (by simp)
        · rw [if_neg hid] at hload
          by_cases hclose : closeOk = true
          · rw [if_pos hclose] at hload
            set rs2 : RSem :=
              { rs1 with resources := modifyIdx p clearIndex rs1.resources }
              with hrs2
            have hr2 : rs2.resources[p]? = some (clearIndex (bindSlot liId r)) := by
              show (modifyIdx p clearIndex rs1.resources)[p]? = _
              rw [modifyIdx_getElem?, hr1]
              rfl
            have htot2 : totalRef rs2 = totalRef rs1 := by
              rw [hrs2, totalRef_modify rs1 p clearIndex (bindSlot liId r) hr1]
              simp [clearIndex]
            by_cases hopen : openOk = true
            · rw [if_pos hopen] at hload
              exact absurd hload (by simp)
            · rw [if_neg hopen] at hload
              simp only [Prod.mk.injEq] at hload
              obtain ⟨h1, -⟩ := hload
              rw [← h1, totalRef_release rs2 p (clearIndex (bindSlot liId r)) hr2,
                htot2, htot1]
              ring
          · rw [if_neg hclose] at hload
            simp only [Prod.mk.injEq] at hload
            obtain ⟨h1, -⟩ := hload
            rw [← h1, totalRef_release rs1 p (bindSlot liId r) hr1, htot1]
            ring
    · intro hwaits _
      rw [heq] at hwaits
      exact absurd hwaits (by simp)
  · constructor
    · intro e rs' hload
      rw [Load, heq] at hload
      dsimp only [] at hload
      simp only [Prod.mk.injEq] at hload
      obtain ⟨h1, -⟩ := hload
      rw [← h1]
    · intro hwaits _
      rw [heq] at hwaits
      exact absurd hwaits (by simp)
  · constructor
    · intro e rs' hload
      rw [Load, heq] at hload
      dsimp only [] at hload
      simp only [Prod.mk.injEq] at hload
      obtain ⟨h1, -⟩ := hload
      rw [← h1]
    · intro hwaits _
      rw [heq] at hwaits
      exact absurd hwaits (by simp)
  · constructor
    · intro e rs' hload
      rw [Load, heq] at hload
      dsimp only [] at hload
      by_cases hcanc : cancelled = true
      · rw [if_pos hcanc] at hload
        simp only [Prod.mk.injEq] at hload
        obtain ⟨h1, -⟩ := hload
        rw [← h1]
      · rw [if_neg hcanc] at hload
        simp only [Prod.mk.injEq] at hload
        obtain ⟨h1, -⟩ := hload
        rw [← h1]
    · intro _ hcanc
      rw [Load, heq]
      dsimp only []
      rw [if_pos hcanc]

/-- Witness for `load_failure_atomic`: a one-slot pool held by id 1; a load
for id 2 must wait and is cancelled, leaving the pool exactly unchanged. -/
theorem load_failure_atomic_witness :
    totalRef (Load ⟨false, [⟨1, 1, none⟩]⟩ 2 true true true).1 =
      totalRef ⟨false, [⟨1, 1, none⟩]⟩ ∧
    Load ⟨false, [⟨1, 1, none⟩]⟩ 2 true true true =
      (⟨false, [⟨1, 1, none⟩]⟩, LoadResult.err "context canceled") :=
  ⟨(load_failure_atomic ⟨false, [⟨1, 1, none⟩]⟩ 2 true true true).1
      "context canceled" (Load ⟨false, [⟨1, 1, none⟩]⟩ 2 true true true).1
      (by decide),
    (load_failure_atomic ⟨false, [⟨1, 1, none⟩]⟩ 2 true true true).2
      (by decide) rfl⟩

/-! ### C5 — retention sweep (`src/unnamed/part_004`, `Engine.enforceRetention`) -/

/-- `Engine.enforceRetention` (src/unnamed/part_004:481-504): one pass over
the registry; every expired descriptor (`Expired`: `end + retention < now`)
is dropped from the list and deletion of its directory attempted (returned
as the list of removed descriptor ids, standing in for the removed paths);
non-expired descriptors are kept in order.  The open-partition pool is not
consulted at all. -/
def enforceRetention (retentionPeriod now : Int) (allIndexes : List LazyIndex) :
    List LazyIndex × List Nat :=
  (allIndexes.filter (fun i => !(i.Expired now retentionPeriod)),
    (allIndexes.filter (fun i => i.Expired now retentionPeriod)).map (fun i => i.id))

/-- C5, counterexample: descriptor id 3 is expired (`50 + 10 < 100`) and the
pool holds a lease on it (slot id 3 with reference count 1), yet the sweep
removes it from the registry and deletes its directory — the claimed
"skip descriptors with a leased slot" behavior does not exist in the code. -/
theorem retention_skip_counterexample :
    ((⟨false, [⟨3, 1, some 3⟩]⟩ : RSem).resources.any
      (fun r => r.id == 3 && decide (0 < r.refCounter))) = true ∧
    (enforceRetention 10 100 [⟨3, 0, 50, false⟩]).1 = [] ∧
    (enforceRetention 10 100 [⟨3, 0, 50, false⟩]).2 = [3] := by
  decide

/-- C5, amended: on a sweep at time `now`, every descriptor with
`end + retention < now` is removed from the registry and its directory
deletion attempted, and every other descriptor is kept; the pool's reference
counts are never consulted, so leased descriptors are removed like any
other (no deferral to a later tick). -/
theorem enforceRetention_spec (retention now : Int) (reg : List LazyIndex) :
    (∀ i ∈ reg, i.endTime + retention < now →
      i ∉ (enforceRetention retention now reg).1 ∧
      i.id ∈ (enforceRetention retention now reg).2) ∧
    (∀ i ∈ reg, ¬ (i.endTime + retention < now) →
      i ∈ (enforceRetention retention now reg).1) ∧
    (∀ i ∈ (enforceRetention retention now reg).1, i ∈ reg) := by
  refine ⟨?_, ?_, ?_⟩
  · intro i hi hexp
    constructor
    · intro hmem
      have := (List.mem_filter.mp hmem).2
      simp [LazyIndex.Expired, hexp] at this
    · refine List.mem_map.mpr ⟨i, ?_, rfl⟩
      refine List.mem_filter.mpr ⟨hi, ?_⟩
      simp [LazyIndex.Expired, hexp]
  · intro i hi hnexp
    refine List.mem_filter.mpr ⟨hi, ?_⟩
    simp [LazyIndex.Expired, hnexp]
  · intro i hi
    exact (List.mem_filter.mp hi).1

/-- Witness for `enforceRetention_spec`: a registry with one expired and one
live descriptor. -/
theorem enforceRetention_spec_witness :
    (1 : Nat) ∈ (enforceRetention 10 100 [⟨1, 0, 50, false⟩, ⟨2, 0, 95, false⟩]).2 ∧
    (⟨2, 0, 95, false⟩ : LazyIndex) ∈
      (enforceRetention 10 100 [⟨1, 0, 50, false⟩, ⟨2, 0, 95, false⟩]).1 :=
  ⟨((enforceRetention_spec 10 100 [⟨1, 0, 50, false⟩, ⟨2, 0, 95, false⟩]).1
      ⟨1, 0, 50, false⟩ (by decide) (by decide)).2,
    (enforceRetention_spec 10 100 [⟨1, 0, 50, false⟩, ⟨2, 0, 95, false⟩]).2.1
      ⟨2, 0, 95, false⟩ (by decide) (by decide)⟩

/-! ### C7 — batcher flush (`src/unnamed/part_004`, `Batcher.Start`)

The `send` closure (src/unnamed/part_004:332-344) is:
```
err := b.indexer.Index(&ctx, batch)
if err != nil { stats.Add("batchIndexedError", 1); return }
stats.Add(...)
if errChan != nil { errChan <- err }
batch = make([]Document, 0, b.size)
```
The model returns the buffer after the flush and the list of values sent on
the error channel during the flush; `indexErr` is the result of the
`Index` call. -/

/-- The `send` closure of `Batcher.Start`: on an indexing error it returns
*before* reporting anything or resetting the buffer; on success it sends the
(nil) error on the channel when one is present and resets the buffer. -/
def batcherSend {D E : Type} (errChanPresent : Bool) (indexErr : Option E)
    (batch : List D) : List D × List (Option E) :=
  match indexErr with
  | some _ => (batch, [])
  | none => ([], if errChanPresent then [none] else [])

/-- C7: the claim says a flush resets the buffer and reports any error to
the supplied error channel.  In the code the early `return` on error keeps
the whole batch for the next flush and sends nothing; the only value ever
sent on `errChan` is the nil error after a *successful* flush — a send that
is dead code under its own guard, contradicting the purpose of the channel.
Evaluated at the failing input (error channel supplied, `Index` fails on
batch `[7]`): buffer kept, nothing reported; and on success only `none` is
ever reported. -/
theorem batcher_send_error_behavior :
    batcherSend (D := Nat) (E := String) true (some "index failed") [7] =
      ([7], []) ∧
    batcherSend (D := Nat) (E := String) true none [7] = ([], [none]) ∧
    batcherSend (D := Nat) (E := String) false (some "index failed") [7] =
      ([7], []) := by
  decide

/-! ### C8 — group-by-time facet buckets (`src/util.go`)

`facetByTime` (src/util.go:223-241) starts at `startAt` and adds a bucket
`[nextStart, nextEnd)` while `nextEnd.Before(endAt)`, stepping by the given
duration.  The loop is rendered with explicit fuel `(endAt - startAt).toNat`;
for a positive step the loop body runs fewer than `endAt - startAt` times,
so the fuel never runs out (`facetRangesAux_spec` needs exactly this bound).
`GroupByTime` (src/util.go:167-221) then sorts the merged `DateRanges` with
`sort.Slice` under a comparator on the `Start` strings (nil `Start` last). -/

def facetRangesAux : Nat → Int → Int → Int → Int → List (Int × Int)
  | 0, _, _, _, _ => []
  | fuel + 1, nextStart, nextEnd, endAt, v =>
      if nextEnd < endAt then
        (nextStart, nextEnd) :: facetRangesAux fuel nextEnd (nextEnd + v) endAt v
      else []

/-- `facetByTime`'s bucket list: `nextStart := startAt`,
`nextEnd := startAt + value`, loop while `nextEnd < endAt`. -/
def facetByTime (startAt endAt : Int) (value : Int) : List (Int × Int) :=
  facetRangesAux (endAt - startAt).toNat startAt (startAt + value) endAt value

/-- `m` contiguous width-`v` buckets starting at `s` (the shape the spec
describes; used to state what `facetByTime` actually produces). -/
def bucketList (s v : Int) : Nat → List (Int × Int)
  | 0 => []
  | m + 1 => (s, s + v) :: bucketList (s + v) v m

/-- bleve `search.DateRangeFacet`: name, optional start/end strings
(RFC3339), count. -/
structure DateRangeFacet where
  Name : List Char
  Start : Option (List Char)
  End : Option (List Char)
  Count : Nat
deriving DecidableEq, Repr

/-- The `sort.Slice` comparator in `GroupByTime` (src/util.go:208-218):
facets without a `Start` sort last; otherwise compare the `Start` strings. -/
def dateRangeLess (a b : DateRangeFacet) : Bool :=
  match a.Start with
  | none => false
  | some x =>
      match b.Start with
      | none => true
      | some y => lexLt x y

/-- The sorting of the merged date-range facets in `GroupByTime`. -/
def sortDateRanges (results : List DateRangeFacet) : List DateRangeFacet :=
  sortGo dateRangeLess results

theorem facetRangesAux_spec (v e : Int) (hv : 0 < v) :
    ∀ (fuel : Nat) (s : Int), e - s ≤ (fuel : Int) →
      ∃ m : Nat, facetRangesAux fuel s (s + v) e v = bucketList s v m ∧
        e ≤ s + ((m : Int) + 1) * v ∧
        (∀ p ∈ bucketList s v m, p.2 = p.1 + v ∧ p.2 < e)
  | 0, s, hfuel => by
    refine ⟨0, rfl, ?_, by simp [bucketList]⟩
    have : e ≤ s := by simpa using hfuel
    have hv' := hv
    push_cast
    nlinarith
  | fuel + 1, s, hfuel => by
    by_cases hlt : s + v < e
    · have hfuel' : e - (s + v) ≤ (fuel : Int) := by
        push_cast at hfuel ⊢
        omega
      obtain ⟨m, hm, hstop, hbk⟩ := facetRangesAux_spec v e hv fuel (s + v) hfuel'
      refine ⟨m + 1, ?_, ?_, ?_⟩
      · rw [facetRangesAux, if_pos hlt, hm]
        rfl
      · have harith : (s + v) + ((m : Int) + 1) * v = s + (((m + 1 : Nat) : Int) + 1) * v := by
          push_cast
          ring
        rw [← harith]
        exact hstop
      · intro p hp
        rcases List.mem_cons.mp hp with rfl | hp'
        · exact ⟨rfl, hlt⟩
        · exact hbk p hp'
    · refine ⟨0, ?_, ?_, by simp [bucketList]⟩
      · rw [facetRangesAux, if_neg hlt]
        rfl
      · push_cast
        omega

theorem bucketList_cover (v : Int) (hv : 0 < v) :
    ∀ (m : Nat) (s t : Int),
      (∃ p ∈ bucketList s v m, p.1 ≤ t ∧ t < p.2) ↔
        (s ≤ t ∧ t < s + (m : Int) * v)
  | 0, s, t => by
    constructor
    · rintro ⟨p, hp, -⟩
      simp [bucketList] at hp
    · rintro ⟨h1, h2⟩
      exfalso
      simp only [Nat.cast_zero, zero_mul, add_zero] at h2
      omega
  | m + 1, s, t => by
    have hsplit : (∃ p ∈ bucketList s v (m + 1), p.1 ≤ t ∧ t < p.2) ↔
        ((s ≤ t ∧ t < s + v) ∨ (∃ p ∈ bucketList (s + v) v m, p.1 ≤ t ∧ t < p.2)) := by
      constructor
      · rintro ⟨p, hp, h⟩
        rcases List.mem_cons.mp hp with rfl | hp'
        · exact Or.inl (by simpa using h)
        · exact Or.inr ⟨p, hp', h⟩
      · rintro (⟨h1, h2⟩ | ⟨p, hp, h⟩)
        · exact ⟨(s, s + v), List.mem_cons_self _ _, h1, h2⟩
        · exact ⟨p, List.mem_cons_of_mem _ hp, h⟩
    rw [hsplit, bucketList_cover v hv m (s + v) t]
    have hw0 : 0 ≤ (m : Int) * v := mul_nonneg (Int.ofNat_nonneg m) hv.le
    have hcast : s + ((m + 1 : Nat) : Int) * v = (s + v) + (m : Int) * v := by
      push_cast
      ring
    rw [hcast]
    obtain ⟨w, hw, hweq⟩ : ∃ w : Int, 0 ≤ w ∧ (m : Int) * v = w :=
      ⟨(m : Int) * v, hw0, rfl⟩
    rw [hweq]
    omega

/-- C8, counterexample: with `start = 0`, `end = 2`, `step = 1` the loop adds
only the bucket `[0,1)` (the bucket `[1,2)` is skipped because its end is not
strictly before `endAt`), so the instant `1 ∈ [start, end]` is covered by no
bucket — the buckets do not cover the whole range. -/
theorem facet_cover_counterexample :
    facetByTime 0 2 1 = [(0, 1)] ∧
    ((facetByTime 0 2 1).all
      (fun p => !(decide (p.1 ≤ (1 : Int)) && decide ((1 : Int) < p.2)))) = true := by
  decide

/-- C8, amended: for a positive step, the facet's buckets are contiguous
half-open intervals `[t, t+step)` starting at `start`, each ending strictly
before `end`; together they cover exactly `[start, start + m·step)` where `m`
is the bucket count, and the next bucket boundary `start + (m+1)·step`
reaches or passes `end` — so the tail of `[start, end]` from the last
boundary on (in particular a final exactly-fitting bucket) is *not* covered.
The merged facet results are sorted ascending by their `Start` string (absent
starts last): the sorted list is a permutation of the input in which no
element is `Less` than a predecessor. -/
theorem groupByTime_spec (s e v : Int) (hv : 0 < v) :
    (∃ m : Nat, facetByTime s e v = bucketList s v m ∧
      e ≤ s + ((m : Int) + 1) * v ∧
      (∀ p ∈ facetByTime s e v, p.2 = p.1 + v ∧ p.2 < e) ∧
      (∀ t : Int, (∃ p ∈ facetByTime s e v, p.1 ≤ t ∧ t < p.2) ↔
        (s ≤ t ∧ t < s + (m : Int) * v))) ∧
    (∀ l : List DateRangeFacet,
      List.Perm (sortDateRanges l) l ∧
      (sortDateRanges l).Pairwise (fun a b => dateRangeLess b a = false)) := by
  constructor
  · have hfuel : e - s ≤ (((e - s).toNat : Nat) : Int) := Int.self_le_toNat (e - s)
    obtain ⟨m, hm, hstop, hbk⟩ := facetRangesAux_spec v e hv (e - s).toNat s hfuel
    refine ⟨m, hm, hstop, ?_, ?_⟩
    · intro p hp
      rw [facetByTime] at hp
      rw [hm] at hp
      exact hbk p hp
    · intro t
      rw [facetByTime, hm]
      exact bucketList_cover v hv m s t
  · intro l
    refine ⟨sortGo_perm dateRangeLess l, ?_⟩
    refine sortGo_pairwise (S := Set.univ) ?_ ?_ l (fun z _ => Set.mem_univ z)
    · intro a _ b _ hab
      unfold dateRangeLess at hab ⊢
      rcases ha : a.Start with _ | x
      · rw [ha] at hab
        exact absurd hab (by simp)
      · rw [ha] at hab
        rcases hb : b.Start with _ | y
        · rfl
        · rw [hb] at hab
          have hab' : lexLt x y = true := hab
          show lexLt y x = false
          exact lexLt_asymm hab'
    · intro a _ b _ c _ hab hbc
      unfold dateRangeLess at hab hbc ⊢
      rcases ha : a.Start with _ | x
      · rfl
      · rw [ha] at hab
        rcases hb : b.Start with _ | y
        · rw [hb] at hab
          have hfalse : (true : Bool) = false := hab
          exact absurd hfalse (by simp)
        · rw [hb] at hab hbc
          rcases hc : c.Start with _ | z
          · rw [hc] at hbc
            have hfalse : (true : Bool) = false := hbc
            exact absurd hfalse (by simp)
          · rw [hc] at hbc
            have hab' : lexLt x y = false := hab
            have hbc' : lexLt y z = false := hbc
            show lexLt x z = false
            exact lexLt_negtrans hab' hbc'

/-- Witness for `groupByTime_spec`: step 3 over `[0, 10]`, and a concrete
two-facet sort. -/
theorem groupByTime_spec_witness :
    List.Perm
      (sortDateRanges [⟨['a'], some ['b'], none, 1⟩, ⟨['c'], some ['a'], none, 2⟩])
      [⟨['a'], some ['b'], none, 1⟩, ⟨['c'], some ['a'], none, 2⟩] :=
  ((groupByTime_spec 0 10 3 (by decide)).2
    [⟨['a'], some ['b'], none, 1⟩, ⟨['c'], some ['a'], none, 2⟩]).1

end Ekanite
